/-
Verification of the budget-planning AI service's parsing, normalization and
categorization core, as a shallow embedding in Lean 4.

Sources embedded:
  * PDFParser (amount normalization, date normalization, transaction match
    parsing, description cleaning, deduplication)
  * ReceiptParser (total extraction, date extraction, merchant heuristic,
    transaction assembly)
  * TransactionCategorizer (default keyword table, learned rules, learning)
  * GeminiPDFParser response handling and the PDF parser factory
  * The pydantic TransactionData schema and the receipt endpoint core

Python floats are modelled as exact rationals; the decimal strings the code
handles are read exactly, so every comparison the claims depend on is
preserved.  Python regular expressions are modelled by a small backtracking
matcher with Python's greedy, ordered-alternation semantics.
-/
import Mathlib

namespace Budget

/-! ### Python-style string primitives, over `List Char` -/

/-- Python whitespace characters (`str.strip`, `\s`, `str.split`). -/
def pyWS (c : Char) : Bool :=
  c == ' ' || c == '\t' || c == '\n' || c == '\r' || c == '\x0b' || c == '\x0c'

/-- `str.strip()`: drop leading and trailing whitespace. -/
def stripPy (l : List Char) : List Char :=
  ((l.dropWhile pyWS).reverse.dropWhile pyWS).reverse

/-- `str.lower()` (ASCII case folding, per character). -/
def lowerS (s : String) : String := ⟨s.toList.map Char.toLower⟩

/-- One step of `str.replace(pat, rep)`: fuel-bounded scan replacing every
non-overlapping occurrence of `pat` (left to right). -/
def replaceAux (pat rep : List Char) : Nat → List Char → List Char
  | 0, s => s
  | _ + 1, [] => []
  | fuel + 1, c :: rest =>
    if pat ≠ [] ∧ pat.isPrefixOf (c :: rest) then
      rep ++ replaceAux pat rep fuel ((c :: rest).drop pat.length)
    else
      c :: replaceAux pat rep fuel rest

/-- `str.replace(pat, rep)`. -/
def replaceL (pat rep s : List Char) : List Char :=
  replaceAux pat rep s.length s

/-- `str.rfind(c)` restricted to single characters: index of the last
occurrence, if any. -/
def rfindN (c : Char) : List Char → Option Nat
  | [] => none
  | a :: t =>
    match rfindN c t with
    | some n => some (n + 1)
    | none => if a = c then some 0 else none

/-- `needle in hay` for strings: substring containment. -/
def isSubstr : List Char → List Char → Bool
  | needle, [] => needle.isEmpty
  | needle, c :: rest => needle.isPrefixOf (c :: rest) || isSubstr needle rest

/-- `str.split()` with no argument: split on whitespace runs, no empty parts.
The first component of the accumulator is the current (reversed) token. -/
def pySplitAux : List Char → List Char → List (List Char)
  | cur, [] => if cur = [] then [] else [cur.reverse]
  | cur, c :: rest =>
    if pyWS c then
      if cur = [] then pySplitAux [] rest else cur.reverse :: pySplitAux [] rest
    else
      pySplitAux (c :: cur) rest

/-- `str.split()`. -/
def pySplitWS (l : List Char) : List (List Char) := pySplitAux [] l

/-- `str.split(sep)` for a single-character separator. -/
def splitSep (sep : Char) : List Char → List (List Char)
  | [] => [[]]
  | c :: rest =>
    if c = sep then
      [] :: splitSep sep rest
    else
      match splitSep sep rest with
      | [] => [[c]]
      | p :: ps => (c :: p) :: ps

/-- Numeric value of a digit string (most significant first). -/
def digitsVal (l : List Char) : Nat :=
  l.foldl (fun acc c => acc * 10 + (c.toNat - '0'.toNat)) 0

/-! ### `float(...)` on the simple decimal forms the code produces

Python's `float` constructor, restricted to an optional leading sign
followed by decimal digits with at most one point (the only shapes the
cleaned strings of this code base can take besides outright garbage, which
fails in both).  The value is read exactly, as a rational. -/

/-- Unsigned decimal literal: all characters digits or `.`, at most one `.`,
at least one digit. -/
def pyFloatMag (l : List Char) : Option ℚ :=
  if l.all (fun c => c.isDigit || c == '.') ∧ l.count '.' ≤ 1 ∧ l.any Char.isDigit then
    let intPart := l.takeWhile (fun c => c ≠ '.')
    let fracPart := (l.dropWhile (fun c => c ≠ '.')).drop 1
    some (mkRat (digitsVal intPart * 10 ^ fracPart.length + digitsVal fracPart)
      (10 ^ fracPart.length))
  else
    none

/-- `float(s)` with an optional leading sign. -/
def pyFloat : List Char → Option ℚ
  | [] => pyFloatMag []
  | c :: rest =>
    if c = '-' then (pyFloatMag rest).map Neg.neg
    else if c = '+' then pyFloatMag rest
    else pyFloatMag (c :: rest)

/-! ### `PDFParser._parse_amount` -/

/-- `PDFParser._parse_amount`: strip currency markers, resolve the decimal
separator (comma vs period, mirroring the branch structure of the source),
record a sign from a leading `-`, `(` or `+`, then read the float. -/
def parseAmount (s : String) : Option ℚ :=
  let cleaned := stripPy (replaceL ['z', 'ł'] []
    (replaceL ['P', 'L', 'N'] [] (replaceL ['$'] [] s.toList)))
  let cleaned := cleaned.filter (fun c => c != ' ')
  let hasComma := cleaned.contains ','
  let hasPeriod := cleaned.contains '.'
  let cleaned :=
    if hasComma ∧ hasPeriod then
      let commaPos := (rfindN ',' cleaned).getD 0
      let periodPos := (rfindN '.' cleaned).getD 0
      if periodPos < commaPos then
        (cleaned.filter (fun c => c != '.')).map (fun c => if c = ',' then '.' else c)
      else
        cleaned.filter (fun c => c != ',')
    else if hasComma then
      let commaPos := (rfindN ',' cleaned).getD 0
      let afterComma := cleaned.drop (commaPos + 1)
      if afterComma.length = 2 ∧ afterComma.all Char.isDigit then
        cleaned.map (fun c => if c = ',' then '.' else c)
      else if 2 < afterComma.length then
        cleaned.filter (fun c => c != ',')
      else
        cleaned.map (fun c => if c = ',' then '.' else c)
    else if hasPeriod then
      let periodPos := (rfindN '.' cleaned).getD 0
      let afterPeriod := cleaned.drop (periodPos + 1)
      if afterPeriod.length = 2 ∧ afterPeriod.all Char.isDigit then
        cleaned
      else if 2 < afterPeriod.length then
        cleaned.filter (fun c => c != '.')
      else
        cleaned
    else
      cleaned
  let isNeg : Bool :=
    match cleaned with
    | '-' :: _ => true
    | '(' :: _ => true
    | _ => false
  let cleaned :=
    if isNeg then
      stripPy (cleaned.filter (fun c => c != '(' && c != ')' && c != '-'))
    else
      match cleaned with
      | '+' :: rest => stripPy rest
      | l => l
  (pyFloat cleaned).map (fun a => if isNeg then -a else a)

/-- `PDFParser._is_amount`: drop `$` and `,`, strip, and test floathood. -/
def isAmount (s : String) : Bool :=
  (pyFloat (stripPy ((s.toList.filter (fun c => c != '$')).filter (fun c => c != ',')))).isSome

/-! ### `PDFParser._parse_date` (shared verbatim with `ReceiptParser._parse_date`)

`datetime.strptime` on the twelve fixed formats of the source.  Each format
is three numeric fields joined by a fixed one-character separator; `%d` and
`%m` accept one or two digits in range, `%Y` exactly four digits, `%y`
exactly two (with CPython's 1969/2068 century pivot).  The parsed triple
must be a real calendar date, and the result is rendered `YYYY-MM-DD`. -/

/-- Field kinds occurring in the source's `strptime` format strings. -/
inductive DField where
  | day | month | year4 | year2
deriving DecidableEq, Repr

/-- One `strptime` format of the source: three fields and a separator. -/
structure DateFmt where
  f1 : DField
  f2 : DField
  f3 : DField
  sep : Char
deriving DecidableEq, Repr

/-- The format list of `_parse_date`, in source order: Polish dot formats,
then US and day-first slash/dash formats, then ISO. -/
def dateFormats : List DateFmt :=
  [⟨.day, .month, .year4, '.'⟩, ⟨.day, .month, .year2, '.'⟩,
   ⟨.month, .day, .year4, '/'⟩, ⟨.month, .day, .year4, '-'⟩,
   ⟨.day, .month, .year4, '/'⟩, ⟨.day, .month, .year4, '-'⟩,
   ⟨.month, .day, .year2, '/'⟩, ⟨.month, .day, .year2, '-'⟩,
   ⟨.day, .month, .year2, '/'⟩, ⟨.day, .month, .year2, '-'⟩,
   ⟨.year4, .month, .day, '-'⟩, ⟨.year4, .month, .day, '/'⟩]

/-- Gregorian leap year. -/
def isLeap (y : Nat) : Bool :=
  y % 4 = 0 && (y % 100 ≠ 0 || y % 400 = 0)

/-- Days in a month (`datetime` validity). -/
def daysInMonth (y m : Nat) : Nat :=
  if m = 2 then (if isLeap y then 29 else 28)
  else if m = 4 ∨ m = 6 ∨ m = 9 ∨ m = 11 then 30
  else 31

/-- Parse one field of a `strptime` format against one separated part. -/
def parseDField : DField → List Char → Option Nat
  | .day, l =>
    if (l.length = 1 ∨ l.length = 2) ∧ l.all Char.isDigit ∧
        1 ≤ digitsVal l ∧ digitsVal l ≤ 31 then some (digitsVal l) else none
  | .month, l =>
    if (l.length = 1 ∨ l.length = 2) ∧ l.all Char.isDigit ∧
        1 ≤ digitsVal l ∧ digitsVal l ≤ 12 then some (digitsVal l) else none
  | .year4, l =>
    if l.length = 4 ∧ l.all Char.isDigit then some (digitsVal l) else none
  | .year2, l =>
    if l.length = 2 ∧ l.all Char.isDigit then
      some (if digitsVal l ≤ 68 then 2000 + digitsVal l else 1900 + digitsVal l)
    else none

/-- Assemble the `(year, month, day)` triple from the three parsed fields of
a format, in field order. -/
def assembleYMD : DField → DField → DField → Nat → Nat → Nat → Nat × Nat × Nat
  | .year4, _, _, a, b, c => (a, b, c)
  | .year2, _, _, a, b, c => (a, b, c)
  | .day, .month, _, a, b, c => (c, b, a)
  | .day, _, _, a, b, c => (b, c, a)
  | .month, _, _, a, b, c => (c, a, b)

/-- `strptime` against a single format, with `datetime` range validation. -/
def parseWithFmt (fmt : DateFmt) (l : List Char) : Option (Nat × Nat × Nat) :=
  match splitSep fmt.sep l with
  | [a, b, c] =>
    match parseDField fmt.f1 a, parseDField fmt.f2 b, parseDField fmt.f3 c with
    | some va, some vb, some vc =>
      let ymd := assembleYMD fmt.f1 fmt.f2 fmt.f3 va vb vc
      if 1 ≤ ymd.1 ∧ ymd.2.2 ≤ daysInMonth ymd.1 ymd.2.1 then some ymd else none
    | _, _, _ => none
  | _ => none

/-- Zero-padded decimal rendering. -/
def padNum (width n : Nat) : List Char :=
  let digits := (Nat.toDigits 10 n)
  List.replicate (width - digits.length) '0' ++ digits

/-- `strftime('%Y-%m-%d')`. -/
def fmtISO (ymd : Nat × Nat × Nat) : String :=
  ⟨padNum 4 ymd.1 ++ '-' :: padNum 2 ymd.2.1 ++ '-' :: padNum 2 ymd.2.2⟩

/-- `PDFParser._parse_date`: strip, try each format in order, render the
first success as `YYYY-MM-DD`. -/
def parseDate (s : String) : Option String :=
  (dateFormats.findSome? (fun f => parseWithFmt f (stripPy s.toList))).map fmtISO

/-! ### `PDFParser._clean_description`, `_parse_transaction_match`,
`_deduplicate_transactions` -/

/-- `PDFParser._clean_description`: collapse whitespace, strip one trailing
`\s+\d+` run and one leading `\d+\s+` run, cap at 200 characters, strip. -/
def cleanDescription (s : String) : String :=
  let collapsed := List.intercalate [' '] (pySplitWS s.toList)
  let noTrail :=
    let rev := collapsed.reverse
    let digits := rev.takeWhile Char.isDigit
    let ws := (rev.drop digits.length).takeWhile pyWS
    if digits ≠ [] ∧ ws ≠ [] then
      (rev.drop (digits.length + ws.length)).reverse
    else collapsed
  let noLead :=
    let digits := noTrail.takeWhile Char.isDigit
    let ws := (noTrail.drop digits.length).takeWhile pyWS
    if digits ≠ [] ∧ ws ≠ [] then
      noTrail.drop (digits.length + ws.length)
    else noTrail
  ⟨stripPy (noLead.take 200)⟩

/-- The transaction record produced by the extractors. -/
structure Transaction where
  date : String
  amount : ℚ
  description : String
  type : String
deriving DecidableEq, Repr

/-- `PDFParser._parse_transaction_match` on the three captured groups:
decide which group is the amount via `_is_amount`, normalize date and
amount (discarding the match if either fails), derive the direction from
the amount's sign, store the absolute value, clean the description. -/
def parseTransactionMatch (g0 g1 g2 : String) : Option Transaction :=
  match parseDate g0 with
  | none => none
  | some d =>
    match parseAmount (if isAmount g1 then g1 else g2) with
    | none => none
    | some a =>
      some { date := d, amount := |a|,
             description := cleanDescription
               (if isAmount g1 then (⟨stripPy g2.toList⟩ : String)
                else (⟨stripPy g1.toList⟩ : String)),
             type := if a < 0 then "expense" else "income" }

/-- The deduplication key: `(date, amount, first 50 characters of the
cleaned description)`. -/
def txKey (t : Transaction) : String × ℚ × String :=
  (t.date, t.amount, ⟨t.description.toList.take 50⟩)

/-- Worker for `_deduplicate_transactions`: the `seen` set of keys. -/
def dedupAux (seen : List (String × ℚ × String)) :
    List Transaction → List Transaction
  | [] => []
  | t :: ts =>
    if txKey t ∈ seen then dedupAux seen ts
    else t :: dedupAux (txKey t :: seen) ts

/-- `PDFParser._deduplicate_transactions`: keep the first transaction for
each key, in order of first appearance. -/
def dedupTransactions (ts : List Transaction) : List Transaction :=
  dedupAux [] ts

/-! ### A small Python-compatible regular-expression matcher

Covers exactly the constructs the receipt patterns use: literals (optionally
case-insensitive, for `re.IGNORECASE`), single-character classes, greedy
`*` / `+` / `?` / `{lo,hi}` over character classes, ordered alternation,
sequencing, and `$`.  Matching is backtracking with Python's ordering:
greedy quantifiers try the longest repetition first, alternation tries the
left branch first, and the first overall success wins. -/

/-- Regular expressions over the constructs used by the source patterns. -/
inductive RE where
  | eps : RE
  | eos : RE
  | lit : List Char → Bool → RE
  | cls : (Char → Bool) → RE
  | star : (Char → Bool) → RE
  | rep : (Char → Bool) → Nat → Nat → RE
  | alt : RE → RE → RE
  | seq : RE → RE → RE

/-- One-character comparison, case-insensitive when `ci` is set. -/
def charMatches (ci : Bool) (p c : Char) : Bool :=
  if ci then p.toLower == c.toLower else p == c

/-- Consume a literal, case-insensitively when `ci` is set. -/
def stripLit : List Char → Bool → List Char → Option (List Char)
  | [], _, s => some s
  | _ :: _, _, [] => none
  | p :: ps, ci, c :: cs =>
    if charMatches ci p c then stripLit ps ci cs
    else none

/-- Greedy `p*` with backtracking continuation. -/
def starM {β : Type} (p : Char → Bool) : List Char → (List Char → Option β) → Option β
  | [], k => k []
  | c :: rest, k =>
    if p c then
      match starM p rest k with
      | some v => some v
      | none => k (c :: rest)
    else k (c :: rest)

/-- Greedy `p{lo,hi}` with backtracking continuation. -/
def repM {β : Type} (p : Char → Bool) :
    Nat → Nat → List Char → (List Char → Option β) → Option β
  | _, 0, s, k => k s
  | lo, _ + 1, [], k => if lo = 0 then k [] else none
  | lo, hi + 1, c :: rest, k =>
    if p c then
      match repM p (lo - 1) hi rest k with
      | some v => some v
      | none => if lo = 0 then k (c :: rest) else none
    else if lo = 0 then k (c :: rest) else none

/-- Single character from a class, with continuation. -/
def clsM {β : Type} (p : Char → Bool) :
    List Char → (List Char → Option β) → Option β
  | [], _ => none
  | c :: rest, k => if p c then k rest else none

/-- The matcher: `mmatch re s k` matches `re` at the start of `s` and calls
the continuation `k` on the remaining input, backtracking through the
alternatives in Python order until `k` succeeds. -/
def mmatch {β : Type} : RE → List Char → (List Char → Option β) → Option β
  | .eps, s, k => k s
  | .eos, s, k => if s = [] ∨ s = ['\n'] then k s else none
  | .lit l ci, s, k =>
    match stripLit l ci s with
    | some rest => k rest
    | none => none
  | .cls p, s, k => clsM p s k
  | .star p, s, k => starM p s k
  | .rep p lo hi, s, k => repM p lo hi s k
  | .alt a b, s, k =>
    match mmatch a s k with
    | some v => some v
    | none => mmatch b s k
  | .seq a b, s, k => mmatch a s (fun rest => mmatch b rest k)

/-- Anchored match of `pre`, then a capturing group `cap`, then `suf`;
returns the group's text and the input remaining after the whole match. -/
def matchHere (pre cap suf : RE) (s : List Char) :
    Option (List Char × List Char) :=
  mmatch pre s (fun r1 =>
    mmatch cap r1 (fun r2 =>
      mmatch suf r2 (fun r3 => some (r1.take (r1.length - r2.length), r3))))

/-- `re.finditer`: scan start positions left to right, collect the group of
each non-overlapping match, resume after each match (one character forward
on failure or an empty match). -/
def findIterAux (pre cap suf : RE) : Nat → List Char → List (List Char)
  | 0, _ => []
  | fuel + 1, [] =>
    match matchHere pre cap suf [] with
    | some (capS, rest) =>
      if rest.length = 0 then [capS] else capS :: findIterAux pre cap suf fuel rest
    | none => []
  | fuel + 1, c :: t =>
    match matchHere pre cap suf (c :: t) with
    | some (capS, rest) =>
      if rest.length = t.length + 1 then capS :: findIterAux pre cap suf fuel t
      else capS :: findIterAux pre cap suf fuel rest
    | none => findIterAux pre cap suf fuel t

/-- `re.finditer` (captured groups, in match order). -/
def findIter (pre cap suf : RE) (s : List Char) : List (List Char) :=
  findIterAux pre cap suf (s.length + 1) s

/-- `re.search`: the group of the first match, if any. -/
def searchFirst (pre cap suf : RE) : List Char → Option (List Char)
  | [] => (matchHere pre cap suf []).map Prod.fst
  | c :: t =>
    match matchHere pre cap suf (c :: t) with
    | some (capS, _) => some capS
    | none => searchFirst pre cap suf t

/-! Character classes of the source patterns (ASCII, which is what the
documents contain). -/

/-- `\d`. -/
def isDigitC (c : Char) : Bool := c.isDigit

/-- `[\d,]`. -/
def isDigitComma (c : Char) : Bool := c.isDigit || c == ','

/-- A literal, case-sensitive. -/
def litS (s : String) : RE := .lit s.toList false

/-- A literal under `re.IGNORECASE`. -/
def litCI (s : String) : RE := .lit s.toList true

/-- Sequencing a list of regular expressions. -/
def seqL (rs : List RE) : RE := rs.foldr .seq .eps

/-! ### `ReceiptParser._extract_total`

The three primary patterns (run first, all matches pooled):
  `(?:total|amount|sum|balance)\s*:?\s*\$?\s*([\d,]+\.?\d{0,2})`
  `(?:grand\s+total|final\s+total)\s*:?\s*\$?\s*([\d,]+\.?\d{0,2})`
  `\$\s*([\d,]+\.\d{2})\s*(?:total|$)`
all under `re.IGNORECASE`, and the fallback `\$?\s*([\d,]+\.\d{2})`,
used only when the primary pool is empty. -/

/-- The loose capture `[\d,]+\.?\d{0,2}` of the keyword patterns. -/
def totalCapture : RE :=
  seqL [.cls isDigitComma, .star isDigitComma,
        .rep (fun c => c == '.') 0 1, .rep isDigitC 0 2]

/-- The strict capture `[\d,]+\.\d{2}` of the third and fallback patterns. -/
def strictCapture : RE :=
  seqL [.cls isDigitComma, .star isDigitComma, litS ".", .rep isDigitC 2 2]

/-- The glue `\s*:?\s*\$?\s*` after a total keyword. -/
def kwGlue : RE :=
  seqL [.star pyWS, .rep (fun c => c == ':') 0 1, .star pyWS,
        .rep (fun c => c == '$') 0 1, .star pyWS]

/-- `(?:total|amount|sum|balance)` (ordered alternation). -/
def totalKw1 : RE :=
  .alt (litCI "total") (.alt (litCI "amount") (.alt (litCI "sum") (litCI "balance")))

/-- `(?:grand\s+total|final\s+total)`. -/
def totalKw2 : RE :=
  .alt (seqL [litCI "grand", .cls pyWS, .star pyWS, litCI "total"])
       (seqL [litCI "final", .cls pyWS, .star pyWS, litCI "total"])

/-- Prefix of the first total pattern. -/
def totalPre1 : RE := .seq totalKw1 kwGlue

/-- Prefix of the second total pattern. -/
def totalPre2 : RE := .seq totalKw2 kwGlue

/-- Prefix `\$\s*` of the third total pattern. -/
def totalPre3 : RE := .seq (litS "$") (.star pyWS)

/-- Suffix `\s*(?:total|$)` of the third total pattern. -/
def totalSuf3 : RE := .seq (.star pyWS) (.alt (litCI "total") .eos)

/-- Prefix `\$?\s*` of the fallback pattern. -/
def fallbackPre : RE := .seq (.rep (fun c => c == '$') 0 1) (.star pyWS)

/-- All captures of the three primary total patterns, in pattern order. -/
def keywordCaptures (text : List Char) : List (List Char) :=
  findIter totalPre1 totalCapture .eps text ++
  findIter totalPre2 totalCapture .eps text ++
  findIter totalPre3 strictCapture totalSuf3 text

/-- The primary candidate amounts: each capture with commas removed and
read as a float, unparseable captures skipped. -/
def keywordAmounts (text : List Char) : List ℚ :=
  (keywordCaptures text).filterMap (fun cap => pyFloat (cap.filter (fun c => c != ',')))

/-- All captures of the fallback pattern (`re.findall`). -/
def fallbackCaptures (text : List Char) : List (List Char) :=
  findIter fallbackPre strictCapture .eps text

/-- `max(list)` of Python on a nonempty list (`0` on `[]`, never used). -/
def listMaxQ : List ℚ → ℚ
  | [] => 0
  | a :: t => t.foldl max a

/-- The fallback list comprehension: all captures must parse, else the
whole conversion fails (`except ValueError: pass`). -/
def parseAllQ : List (List Char) → Option (List ℚ)
  | [] => some []
  | c :: cs =>
    match pyFloat (c.filter (fun ch => ch != ',')), parseAllQ cs with
    | some a, some l => some (a :: l)
    | _, _ => none

/-- `ReceiptParser._extract_total`: maximum of the primary candidates if
any exist; otherwise maximum of the fallback captures, provided they all
parse; otherwise absent. -/
def extractTotal (text : String) : Option ℚ :=
  let amounts := keywordAmounts text.toList
  if amounts ≠ [] then some (listMaxQ amounts)
  else
    let allA := fallbackCaptures text.toList
    if allA ≠ [] then
      match parseAllQ allA with
      | some l => some (listMaxQ l)
      | none => none
    else none

/-! ### `ReceiptParser._extract_date`, `_extract_merchant`, `parse_receipt` -/

/-- The slash-dash class of the date patterns. -/
def isSlashDash (c : Char) : Bool := c == '/' || c == '-'

/-- `\d{1,2}\.\d{1,2}\.\d{2,4}`. -/
def datePat1 : RE :=
  seqL [.rep isDigitC 1 2, litS ".", .rep isDigitC 1 2, litS ".", .rep isDigitC 2 4]

/-- `\d{1,2}` slash-dash `\d{1,2}` slash-dash `\d{2,4}`. -/
def datePat2 : RE :=
  seqL [.rep isDigitC 1 2, .cls isSlashDash, .rep isDigitC 1 2, .cls isSlashDash,
        .rep isDigitC 2 4]

/-- `\d{4}` slash-dash `\d{2}` slash-dash `\d{2}`. -/
def datePat3 : RE :=
  seqL [.rep isDigitC 4 4, .cls isSlashDash, .rep isDigitC 2 2, .cls isSlashDash,
        .rep isDigitC 2 2]

/-- `\d{2}` slash-dash `\d{2}` slash-dash `\d{2}`. -/
def datePat4 : RE :=
  seqL [.rep isDigitC 2 2, .cls isSlashDash, .rep isDigitC 2 2, .cls isSlashDash,
        .rep isDigitC 2 2]

/-- `ReceiptParser._extract_date`: for each pattern in order take the first
`re.search` match and normalize it; a match that fails normalization
abandons that pattern. -/
def extractDate (text : String) : Option String :=
  [datePat1, datePat2, datePat3, datePat4].findSome? (fun pat =>
    (searchFirst .eps pat .eps text.toList).bind (fun g => parseDate ⟨g⟩))

/-- `ReceiptParser._extract_merchant`: the first of the first five lines
whose stripped length is between 3 and 50 with alphabetic ratio above
one half. -/
def extractMerchant (text : String) : Option String :=
  ((splitSep '\n' text.toList).take 5).findSome? (fun line =>
    let l := stripPy line
    if 3 ≤ l.length ∧ l.length ≤ 50 ∧ l.length < 2 * l.countP Char.isAlpha then
      some (⟨l⟩ : String)
    else none)

/-- The transaction dictionary assembled by `ReceiptParser.parse_receipt`
from the OCR text (`today` stands for `datetime.now()`'s date): absent
date, total and merchant fall back to today, `0.0` and
`"Receipt Purchase"`; the type is always `"expense"`. -/
def parseReceiptTransaction (today text : String) : Transaction :=
  { date := (extractDate text).getD today
    amount := (extractTotal text).getD 0
    description := (extractMerchant text).getD "Receipt Purchase"
    type := "expense" }

/-! ### The `TransactionData` wire schema and the receipt endpoint -/

/-- The pydantic `TransactionData` output schema's validated fields. -/
structure TransactionData where
  date : String
  amount : ℚ
  description : String
  type : String
deriving DecidableEq, Repr

/-- Construction of `TransactionData`: the `amount` field carries
`Field(..., gt=0)`, so construction fails unless the amount is strictly
positive (pydantic raises a validation error). -/
def mkTransactionData (date : String) (amount : ℚ) (description ty : String) :
    Option TransactionData :=
  if 0 < amount then some ⟨date, amount, description, ty⟩ else none

/-- The pure core of the `/receipt` endpooint of the receipt router: build
the transaction from the parsed receipt and validate it into
`TransactionData`; a validation failure is caught by the blanket handler
and surfaced as an HTTP 500 error, not returned as data. -/
def receiptEndpointCore (today text : String) : Except String TransactionData :=
  match mkTransactionData (parseReceiptTransaction today text).date
      (parseReceiptTransaction today text).amount
      (parseReceiptTransaction today text).description
      (parseReceiptTransaction today text).type with
  | some td => .ok td
  | none => .error "Error parsing receipt"

/-! ### `TransactionCategorizer` -/

/-- A learned categorization rule as created by `learn`. -/
structure Rule where
  pattern : String
  category : String
  learned_from : Nat
deriving DecidableEq, Repr

/-- The confidence of a matching learned rule:
`min(0.8 + learned_from * 0.03, 0.95)`. -/
def ruleConf (n : Nat) : ℚ :=
  min (4 / 5 + (n : ℚ) * (3 / 100)) (19 / 20)

/-- The confidence of a matching default keyword:
`min(0.6 + len(keyword) * 0.01, 0.75)`. -/
def keywordConf (k : String) : ℚ :=
  min (3 / 5 + (k.length : ℚ) * (1 / 100)) (3 / 4)

/-- The default keyword table, seeded at construction, in source order. -/
def defaultPatterns : List (String × List String) :=
  [("Food & Dining",
    ["grocery", "restaurant", "food", "cafe", "coffee", "lunch", "dinner",
     "breakfast", "pizza", "burger", "starbucks", "mcdonald", "subway",
     "chipotle", "domino", "taco", "sushi", "deli", "bakery", "market",
     "whole foods", "trader joe", "safeway", "kroger", "publix"]),
   ("Transportation",
    ["gas", "fuel", "uber", "lyft", "taxi", "parking", "transit",
     "metro", "bus", "train", "subway", "toll", "car wash", "auto",
     "shell", "chevron", "exxon", "bp", "mobil"]),
   ("Shopping",
    ["amazon", "walmart", "target", "store", "shop", "mall", "retail",
     "ebay", "etsy", "best buy", "costco", "ikea", "home depot", "lowes"]),
   ("Utilities",
    ["electric", "water", "gas", "internet", "phone", "utility",
     "comcast", "verizon", "at&t", "spectrum", "xfinity", "power",
     "energy", "cable", "wireless"]),
   ("Entertainment",
    ["movie", "netflix", "spotify", "hulu", "disney", "game", "concert",
     "theater", "cinema", "music", "streaming", "youtube", "apple music",
     "xbox", "playstation", "steam"]),
   ("Healthcare",
    ["doctor", "pharmacy", "hospital", "medical", "health", "clinic",
     "cvs", "walgreens", "rite aid", "dental", "dentist", "vision",
     "prescription", "medicine", "urgent care"]),
   ("Housing",
    ["rent", "mortgage", "insurance", "hoa", "property", "lease",
     "apartment", "condo", "home insurance", "renters insurance"]),
   ("Personal Care",
    ["salon", "haircut", "spa", "gym", "fitness", "yoga", "massage",
     "beauty", "cosmetic", "barber", "nail", "planet fitness", "la fitness"]),
   ("Bills & Fees",
    ["bill", "fee", "charge", "payment", "subscription", "membership",
     "annual fee", "service charge", "late fee"]),
   ("Income",
    ["salary", "paycheck", "wage", "income", "deposit", "payment received",
     "refund", "reimbursement", "bonus", "commission"])]

/-- The loop of `_check_learned_rules`: best match so far and its
confidence, scanning rules in store order; a later rule replaces the best
only with strictly greater confidence. -/
def checkLearnedAux (dl : String) (best : Option (String × ℚ)) (bestConf : ℚ) :
    List Rule → Option (String × ℚ)
  | [] => best
  | r :: rs =>
    if lowerS r.pattern = "" ∨ r.category = "" then
      checkLearnedAux dl best bestConf rs
    else if isSubstr (lowerS r.pattern).toList dl.toList then
      if bestConf < ruleConf r.learned_from then
        checkLearnedAux dl (some (r.category, ruleConf r.learned_from))
          (ruleConf r.learned_from) rs
      else checkLearnedAux dl best bestConf rs
    else
      checkLearnedAux dl best bestConf rs

/-- `TransactionCategorizer._check_learned_rules`. -/
def checkLearnedRules (rules : List Rule) (dl : String) : Option (String × ℚ) :=
  checkLearnedAux dl none 0 rules

/-- All default-keyword matches `(category, confidence, keyword length)`,
in table order. -/
def defaultMatches (dl : String) : List (String × ℚ × Nat) :=
  defaultPatterns.flatMap (fun p =>
    (p.2.filter (fun k => isSubstr k.toList dl.toList)).map
      (fun k => (p.1, keywordConf k, k.length)))

/-- Stable insertion (descending by `(confidence, keyword length)`): the
inserted element goes after every earlier element with a key at least as
large, mirroring Python's stable `sort(reverse=True)`. -/
def insertDesc (x : String × ℚ × Nat) :
    List (String × ℚ × Nat) → List (String × ℚ × Nat)
  | [] => [x]
  | y :: ys =>
    if x.2.1 < y.2.1 ∨ (x.2.1 = y.2.1 ∧ x.2.2 ≤ y.2.2) then y :: insertDesc x ys
    else x :: y :: ys

/-- `matches.sort(key=..., reverse=True)` as a stable insertion sort. -/
def sortMatchesDesc (l : List (String × ℚ × Nat)) : List (String × ℚ × Nat) :=
  l.foldl (fun acc x => insertDesc x acc) []

/-- `TransactionCategorizer._check_default_patterns`. -/
def checkDefaultPatterns (dl : String) : Option (String × ℚ) :=
  match sortMatchesDesc (defaultMatches dl) with
  | [] => none
  | m :: _ => some (m.1, m.2.1)

/-- `TransactionCategorizer.categorize`: learned rules first, then default
keywords, then `("Uncategorized", 0.3)`. -/
def categorize (rules : List Rule) (description : String) : String × ℚ :=
  match checkLearnedRules rules (lowerS description) with
  | some m => m
  | none =>
    match checkDefaultPatterns (lowerS description) with
    | some m => m
    | none => ("Uncategorized", 3 / 10)

/-! ### `TransactionCategorizer.learn` -/

/-- A regex word character (`\w`, ASCII). -/
def wordChar (c : Char) : Bool := c.isAlphanum || c == '_'

/-- The filler words removed by `_extract_pattern`, in alternation order. -/
def fillerWords : List (List Char) :=
  ["purchase", "payment", "at", "from", "to", "the", "a", "an"].map String.toList

/-- Whether a word boundary follows at the given remaining input. -/
def boundaryAfter : List Char → Bool
  | [] => true
  | c :: _ => !wordChar c

/-- The scan of `re.sub` for the word-bounded filler alternation: at each
position, if a filler matches with a word boundary on both sides, drop it
(the last dropped character becomes the context for the next boundary);
otherwise emit the character.  Fuel is the input length. -/
def removeFillersAux : Nat → Option Char → List Char → List Char
  | 0, _, s => s
  | _ + 1, _, [] => []
  | fuel + 1, prev, c :: rest =>
    let boundaryBefore := match prev with | none => true | some p => !wordChar p
    match (if boundaryBefore then
            fillerWords.find? (fun w =>
              w.isPrefixOf (c :: rest) && boundaryAfter ((c :: rest).drop w.length))
          else none) with
    | some w =>
      removeFillersAux fuel (some (w.getLastD c)) ((c :: rest).drop w.length)
    | none => c :: removeFillersAux fuel (some c) rest

/-- The `re.sub` of `_extract_pattern`. -/
def removeFillers (l : List Char) : List Char :=
  removeFillersAux l.length none l

/-- `TransactionCategorizer._extract_pattern`: remove filler words, take
the first two alphanumeric tokens of length at least 3, else fall back to
the first 30 characters. -/
def extractPattern (dl : String) : String :=
  let cleaned := stripPy (removeFillers dl.toList)
  let words := ((pySplitWS cleaned).filter
    (fun w => 3 ≤ w.length ∧ w.all Char.isAlphanum)).take 2
  if words ≠ [] then ⟨List.intercalate [' '] words⟩
  else ⟨stripPy (dl.toList.take 30)⟩

/-- Update the first rule satisfying the predicate, in place. -/
def updateFirst (p : Rule → Bool) (f : Rule → Rule) : List Rule → List Rule
  | [] => []
  | r :: rs => if p r then f r :: rs else r :: updateFirst p f rs

/-- `TransactionCategorizer.learn` (in-memory rule-store effect; the file
persistence is fire-and-forget and does not affect the store): look up the
extracted pattern; same category increments `learned_from`, a different
category overwrites it and resets the count, a new pattern appends a fresh
rule with count 1. -/
def learn (rules : List Rule) (description category : String) : List Rule :=
  let pattern := extractPattern (lowerS description)
  if rules.any (fun r => r.pattern = pattern) then
    updateFirst (fun r => r.pattern = pattern)
      (fun r =>
        if r.category = category then { r with learned_from := r.learned_from + 1 }
        else { pattern := r.pattern, category := category, learned_from := 1 })
      rules
  else
    rules ++ [{ pattern := pattern, category := category, learned_from := 1 }]

/-- `n` repetitions of the same `learn` call on a fresh engine (the rule
store starts empty when no rules file exists). -/
def learnN (n : Nat) (description category : String) : List Rule :=
  match n with
  | 0 => []
  | n + 1 => learn (learnN n description category) description category

/-! ### `GeminiPDFParser` response handling and the parser factory -/

/-- A transaction as decoded from the collaborator's JSON: every field may
be missing, and the amount may fail float coercion (`none` inside). -/
structure JTrans where
  date : Option String
  amount : Option (Option ℚ)
  description : Option String
  type : Option String
  category : Option String
deriving DecidableEq, Repr

/-- The decoded structured response `{ account, transactions }`. -/
structure GeminiData where
  account : Option String
  transactions : List JTrans
deriving DecidableEq, Repr

/-- A validated transaction of the Gemini path (account attached when the
response carried one). -/
structure GTrans where
  date : String
  amount : ℚ
  description : String
  type : String
  category : Option String
  account : Option String
deriving DecidableEq, Repr

/-- `GeminiPDFParser._validate_transaction`: all four required fields
present, amount float-coercible and replaced by its absolute value, type
in the allowed set, date string of length at least 8. -/
def validateTransaction (t : JTrans) : Option (ℚ × String × String × String) :=
  match t.date, t.amount, t.description, t.type with
  | some d, some am, some ds, some ty =>
    match am with
    | some a =>
      if ty = "income" ∨ ty = "expense" ∨ ty = "transfer" then
        if 8 ≤ d.length then some (|a|, d, ds, ty) else none
      else none
    | none => none
  | _, _, _, _ => none

/-- The failure modes of the Gemini call: the response text does not parse
as JSON, or the API call itself raises. -/
inductive GeminiFailure where
  | malformedResponse
  | apiError
deriving DecidableEq, Repr

/-- The result handling of `GeminiPDFParser._parse_with_gemini`: on either
failure mode the function returns the empty list; on success it keeps the
validated transactions, attaching the detected account. -/
def parseWithGemini (decoded : Except GeminiFailure GeminiData) : List GTrans :=
  match decoded with
  | .error _ => []
  | .ok data =>
    data.transactions.filterMap (fun t =>
      (validateTransaction t).map (fun v =>
        { date := v.2.1, amount := v.1, description := v.2.2.1, type := v.2.2.2,
          category := t.category, account := data.account }))

/-- Which parser the factory hands out. -/
inductive ParserChoice where
  | gemini
  | regex
deriving DecidableEq, Repr

/-- `create_pdf_parser`: the Gemini parser is chosen only when requested,
a non-empty API key is present and initialization succeeds; otherwise the
regex parser.  This is the only place the regex parser is selected. -/
def createPdfParser (useGemini : Bool) (apiKey : Option String)
    (initOk : Bool) : ParserChoice :=
  if useGemini ∧ apiKey.getD "" ≠ "" then
    if initOk then .gemini else .regex
  else
    .regex

/-! ### A character bound on regular expressions

`REok P re` states that every character `re` can consume satisfies `P`;
it is used to show that captured groups consist of digits, commas and
periods only, hence parse to non-negative amounts. -/

/-- Every character a class can accept satisfies `P`. -/
def clsOK (P : Char → Prop) (p : Char → Bool) : Prop :=
  ∀ c, p c = true → P c

/-- Every character the expression can consume satisfies `P`. -/
def REok (P : Char → Prop) : RE → Prop
  | .eps => True
  | .eos => True
  | .lit l ci => ∀ c, (∃ d ∈ l, if ci then c.toLower = d.toLower else c = d) → P c
  | .cls p => clsOK P p
  | .star p => clsOK P p
  | .rep p _ _ => clsOK P p
  | .alt a b => REok P a ∧ REok P b
  | .seq a b => REok P a ∧ REok P b

/-- The character alphabet of the amount captures. -/
def amountChar (c : Char) : Prop :=
  c.isDigit = true ∨ c = ',' ∨ c = '.'

/-! ## Theorems -/

/-! ### Soundness of the matcher: consumed characters obey `REok` -/

/-- `stripLit` consumes exactly the literal's length; every consumed
character is the corresponding literal character, up to case when the
literal is case-insensitive. -/
theorem stripLit_sound {l : List Char} {ci : Bool} {s r : List Char}
    (h : stripLit l ci s = some r) :
    l.length ≤ s.length ∧ r = s.drop l.length ∧
      ∀ c ∈ s.take l.length, ∃ d ∈ l, (if ci then c.toLower = d.toLower else c = d) := by
  induction l generalizing s with
  | nil =>
    simp only [stripLit, Option.some.injEq] at h
    simp [h]
  | cons p ps ih =>
    cases s with
    | nil => simp [stripLit] at h
    | cons c cs =>
      unfold stripLit at h
      split at h
      · rename_i hc
        obtain ⟨h1, h2, h3⟩ := ih h
        refine ⟨by simpa using Nat.succ_le_succ h1, by simpa using h2, ?_⟩
        intro x hx
        rw [List.length_cons, List.take_succ_cons] at hx
        rcases List.mem_cons.mp hx with hx | hx
        · subst hx
          refine ⟨p, List.mem_cons_self p ps, ?_⟩
          cases ci <;> simp only [charMatches, if_true, if_false, beq_iff_eq] at hc <;>
            simp_all
        · obtain ⟨d, hd, hdd⟩ := h3 x hx
          exact ⟨d, List.mem_cons_of_mem p hd, hdd⟩
      · exact absurd h (by simp)

/-- Soundness of the greedy star: the consumed prefix lies in the class. -/
theorem starM_sound {β : Type} {p : Char → Bool} :
    ∀ {s : List Char} {k : List Char → Option β} {v : β},
      starM p s k = some v →
      ∃ n, n ≤ s.length ∧ (∀ c ∈ s.take n, p c = true) ∧ k (s.drop n) = some v := by
  intro s
  induction s with
  | nil =>
    intro k v h
    exact ⟨0, by simp, by simp, by simpa [starM] using h⟩
  | cons c rest ih =>
    intro k v h
    unfold starM at h
    split at h
    · rename_i hc
      cases hs : starM p rest k with
      | some v2 =>
        rw [hs] at h
        rw [Option.some.injEq] at h
        subst h
        obtain ⟨n, hn, hg, hk⟩ := ih hs
        refine ⟨n + 1, by simpa using hn, ?_, by simpa using hk⟩
        intro x hx
        rw [List.take_succ_cons] at hx
        rcases List.mem_cons.mp hx with hx | hx
        · subst hx; exact hc
        · exact hg x hx
      | none =>
        rw [hs] at h
        exact ⟨0, by simp, by simp, h⟩
    · exact ⟨0, by simp, by simp, h⟩

/-- Soundness of the greedy bounded repetition. -/
theorem repM_sound {β : Type} {p : Char → Bool} :
    ∀ {hi lo : Nat} {s : List Char} {k : List Char → Option β} {v : β},
      repM p lo hi s k = some v →
      ∃ n, n ≤ s.length ∧ (∀ c ∈ s.take n, p c = true) ∧ k (s.drop n) = some v := by
  intro hi
  induction hi with
  | zero =>
    intro lo s k v h
    unfold repM at h
    refine ⟨0, Nat.zero_le _, by simp, ?_⟩
    simpa using h
  | succ hi ih =>
    intro lo s k v h
    cases s with
    | nil =>
      unfold repM at h
      split at h
      · refine ⟨0, Nat.zero_le _, by simp, by simpa using h⟩
      · exact absurd h (by simp)
    | cons c rest =>
      unfold repM at h
      split at h
      · rename_i hc
        cases hs : repM p (lo - 1) hi rest k with
        | some v2 =>
          simp only [hs] at h
          rw [Option.some.injEq] at h
          subst h
          obtain ⟨n, hn, hg, hk⟩ := ih hs
          refine ⟨n + 1, by simpa using hn, ?_, by simpa using hk⟩
          intro x hx
          rw [List.take_succ_cons] at hx
          rcases List.mem_cons.mp hx with hx | hx
          · subst hx; exact hc
          · exact hg x hx
        | none =>
          simp only [hs] at h
          split at h
          · exact ⟨0, Nat.zero_le _, by simp, by simpa using h⟩
          · exact absurd h (by simp)
      · split at h
        · exact ⟨0, Nat.zero_le _, by simp, by simpa using h⟩
        · exact absurd h (by simp)

/-- Soundness of the matcher: on success, some prefix of `n` characters,
all bounded by `REok`, was consumed and the continuation succeeded on the
rest. -/
theorem mmatch_sound {β : Type} {P : Char → Prop} :
    ∀ (re : RE), REok P re → ∀ {s : List Char} {k : List Char → Option β} {v : β},
      mmatch re s k = some v →
      ∃ n, n ≤ s.length ∧ (∀ c ∈ s.take n, P c) ∧ k (s.drop n) = some v := by
  intro re
  induction re with
  | eps =>
    intro hok s k v h
    exact ⟨0, by simp, by simp, by simpa [mmatch] using h⟩
  | eos =>
    intro hok s k v h
    unfold mmatch at h
    split at h
    · exact ⟨0, by simp, by simp, h⟩
    · exact absurd h (by simp)
  | lit l ci =>
    intro hok s k v h
    unfold mmatch at h
    cases hs : stripLit l ci s with
    | none => rw [hs] at h; exact absurd h (by simp)
    | some rest =>
      rw [hs] at h
      obtain ⟨h1, h2, h3⟩ := stripLit_sound hs
      refine ⟨l.length, h1, ?_, by rwa [← h2]⟩
      intro c hc
      exact hok c (h3 c hc)
  | cls p =>
    intro hok s k v h
    unfold mmatch at h
    cases s with
    | nil => exact absurd h (by simp [clsM])
    | cons c rest =>
      replace h : (if p c then k rest else none) = some v := h
      split at h
      · rename_i hc
        refine ⟨1, by simp, ?_, by simpa using h⟩
        intro x hx
        rw [show (1 : Nat) = 0 + 1 from rfl, List.take_succ_cons] at hx
        rcases List.mem_cons.mp hx with hx | hx
        · rw [hx]; exact hok c hc
        · simp at hx
      · exact absurd h (by simp)
  | star p =>
    intro hok s k v h
    obtain ⟨n, hn, hg, hk⟩ := starM_sound (by simpa [mmatch] using h)
    exact ⟨n, hn, fun c hc => hok c (hg c hc), hk⟩
  | rep p lo hi =>
    intro hok s k v h
    obtain ⟨n, hn, hg, hk⟩ := repM_sound (by simpa [mmatch] using h)
    exact ⟨n, hn, fun c hc => hok c (hg c hc), hk⟩
  | alt a b iha ihb =>
    intro hok s k v h
    unfold mmatch at h
    cases ha : mmatch a s k with
    | some v2 =>
      rw [ha] at h
      rw [Option.some.injEq] at h
      subst h
      exact iha hok.1 ha
    | none =>
      rw [ha] at h
      exact ihb hok.2 h
  | seq a b iha ihb =>
    intro hok s k v h
    unfold mmatch at h
    obtain ⟨n1, hn1, hg1, hk1⟩ := iha hok.1 h
    obtain ⟨n2, hn2, hg2, hk2⟩ := ihb hok.2 hk1
    refine ⟨n1 + n2, ?_, ?_, ?_⟩
    · rw [List.length_drop] at hn2
      omega
    · intro c hc
      rw [List.take_add] at hc
      rcases List.mem_append.mp hc with hc | hc
      · exact hg1 c hc
      · exact hg2 c hc
    · have h2 := hk2
      rw [List.drop_drop] at h2
      exact h2

/-- Every expression is bounded by the trivial predicate. -/
theorem REok_true (re : RE) : REok (fun _ => True) re := by
  induction re with
  | eps => trivial
  | eos => trivial
  | lit l ci => intro c _; trivial
  | cls p => intro c _; trivial
  | star p => intro c _; trivial
  | rep p lo hi => intro c _; trivial
  | alt a b iha ihb => exact ⟨iha, ihb⟩
  | seq a b iha ihb => exact ⟨iha, ihb⟩

/-- On success the continuation was called on some remaining input. -/
theorem mmatch_k {β : Type} (re : RE) {s : List Char} {k : List Char → Option β}
    {v : β} (h : mmatch re s k = some v) : ∃ r, k r = some v := by
  obtain ⟨n, _, _, hk⟩ := mmatch_sound (P := fun _ => True) re (REok_true re) h
  exact ⟨s.drop n, hk⟩

/-- The captured group of an anchored match consists of characters bounded
by the capture expression's `REok`. -/
theorem matchHere_cap {P : Char → Prop} {pre cap suf : RE} (hcap : REok P cap)
    {s capS rest : List Char} (h : matchHere pre cap suf s = some (capS, rest)) :
    ∀ c ∈ capS, P c := by
  unfold matchHere at h
  obtain ⟨r1, h1⟩ := mmatch_k pre h
  obtain ⟨n, hn, hg, hk⟩ := mmatch_sound cap hcap h1
  obtain ⟨r3, h3⟩ := mmatch_k suf hk
  rw [Option.some.injEq, Prod.mk.injEq] at h3
  obtain ⟨hcs, -⟩ := h3
  rw [List.length_drop] at hcs
  have hlen : r1.length - (r1.length - n) = n := by omega
  rw [hlen] at hcs
  intro c hc
  rw [← hcs] at hc
  exact hg c hc

/-- Every capture collected by `findIterAux` is character-bounded. -/
theorem findIterAux_cap {P : Char → Prop} {pre cap suf : RE} (hcap : REok P cap) :
    ∀ (fuel : Nat) (s : List Char), ∀ g ∈ findIterAux pre cap suf fuel s, ∀ c ∈ g, P c := by
  intro fuel
  induction fuel with
  | zero =>
    intro s g hg
    simp [findIterAux] at hg
  | succ fuel ih =>
    intro s g hg
    cases s with
    | nil =>
      unfold findIterAux at hg
      cases hm : matchHere pre cap suf [] with
      | some pr =>
        obtain ⟨capS, rest⟩ := pr
        simp only [hm] at hg
        split at hg
        · rw [List.mem_singleton] at hg
          subst hg; exact matchHere_cap hcap hm
        · rcases List.mem_cons.mp hg with hg | hg
          · subst hg; exact matchHere_cap hcap hm
          · exact ih rest g hg
      | none =>
        simp only [hm] at hg
        simp at hg
    | cons c t =>
      unfold findIterAux at hg
      cases hm : matchHere pre cap suf (c :: t) with
      | some pr =>
        obtain ⟨capS, rest⟩ := pr
        simp only [hm] at hg
        split at hg
        · rcases List.mem_cons.mp hg with hg | hg
          · subst hg; exact matchHere_cap hcap hm
          · exact ih t g hg
        · rcases List.mem_cons.mp hg with hg | hg
          · subst hg; exact matchHere_cap hcap hm
          · exact ih rest g hg
      | none =>
        simp only [hm] at hg
        exact ih t g hg

/-- Every capture collected by `findIter` is character-bounded. -/
theorem findIter_cap {P : Char → Prop} {pre cap suf : RE} (hcap : REok P cap)
    {s : List Char} {g : List Char} (hg : g ∈ findIter pre cap suf s) :
    ∀ c ∈ g, P c :=
  findIterAux_cap hcap (s.length + 1) s g hg

/-- The loose amount capture consumes only digits, commas and periods. -/
theorem REok_totalCapture : REok amountChar totalCapture := by
  refine ⟨?_, ?_, ?_, ?_, trivial⟩ <;> intro c hc
  · simp only [isDigitComma, Bool.or_eq_true, beq_iff_eq] at hc
    rcases hc with hc | hc
    · exact Or.inl hc
    · exact Or.inr (Or.inl hc)
  · simp only [isDigitComma, Bool.or_eq_true, beq_iff_eq] at hc
    rcases hc with hc | hc
    · exact Or.inl hc
    · exact Or.inr (Or.inl hc)
  · simp only [beq_iff_eq] at hc
    exact Or.inr (Or.inr hc)
  · exact Or.inl hc

/-- The strict amount capture consumes only digits, commas and periods. -/
theorem REok_strictCapture : REok amountChar strictCapture := by
  refine ⟨?_, ?_, ?_, ?_, trivial⟩
  · intro c hc
    simp only [isDigitComma, Bool.or_eq_true, beq_iff_eq] at hc
    rcases hc with hc | hc
    · exact Or.inl hc
    · exact Or.inr (Or.inl hc)
  · intro c hc
    simp only [isDigitComma, Bool.or_eq_true, beq_iff_eq] at hc
    rcases hc with hc | hc
    · exact Or.inl hc
    · exact Or.inr (Or.inl hc)
  · intro c hc
    simp only [litS, String.toList] at hc
    obtain ⟨d, hd, hcd⟩ := hc
    simp at hd
    subst hd
    simp at hcd
    exact Or.inr (Or.inr hcd)
  · intro c hc
    exact Or.inl hc

/-! ### Non-negativity of parsed capture amounts -/

/-- An unsigned decimal magnitude is non-negative. -/
theorem pyFloatMag_nonneg {l : List Char} {a : ℚ} (h : pyFloatMag l = some a) :
    0 ≤ a := by
  unfold pyFloatMag at h
  split at h
  · rw [Option.some.injEq] at h
    subst h
    rw [Rat.mkRat_eq_div]
    positivity
  · exact absurd h (by simp)

/-- `float` of a string without a minus sign is non-negative. -/
theorem pyFloat_nonneg {l : List Char} {a : ℚ}
    (hm : ∀ c ∈ l, c ≠ '-') (h : pyFloat l = some a) : 0 ≤ a := by
  cases l with
  | nil => exact pyFloatMag_nonneg (by simpa [pyFloat] using h)
  | cons c rest =>
    replace h : (if c = '-' then (pyFloatMag rest).map Neg.neg
        else if c = '+' then pyFloatMag rest else pyFloatMag (c :: rest)) = some a := h
    split at h
    · rename_i hc
      exact absurd hc (hm c (List.mem_cons_self c rest))
    · split at h
      · exact pyFloatMag_nonneg h
      · exact pyFloatMag_nonneg h

/-- A fold of `max` over non-negative values is non-negative. -/
theorem foldl_max_nonneg :
    ∀ (t : List ℚ) (a : ℚ), 0 ≤ a → (∀ x ∈ t, 0 ≤ x) → 0 ≤ t.foldl max a := by
  intro t
  induction t with
  | nil =>
    intro a ha _
    simpa using ha
  | cons x t ih =>
    intro a ha hx
    simp only [List.foldl_cons]
    exact ih (max a x) (le_trans ha (le_max_left a x))
      (fun y hy => hx y (List.mem_cons_of_mem x hy))

/-- Python's `max` over a list of non-negative values is non-negative. -/
theorem listMaxQ_nonneg {l : List ℚ} (h : ∀ x ∈ l, 0 ≤ x) : 0 ≤ listMaxQ l := by
  cases l with
  | nil => simp [listMaxQ]
  | cons a t =>
    exact foldl_max_nonneg t a (h a (List.mem_cons_self a t))
      (fun x hx => h x (List.mem_cons_of_mem a hx))

/-- A character of the amount alphabet is not a minus sign. -/
theorem amountChar_ne_minus {c : Char} (h : amountChar c) : c ≠ '-' := by
  intro he
  subst he
  rcases h with h | h | h
  · simp at h
  · exact absurd h (by decide)
  · exact absurd h (by decide)

/-- Every primary candidate amount of `_extract_total` is non-negative. -/
theorem keywordAmounts_nonneg (text : List Char) :
    ∀ a ∈ keywordAmounts text, 0 ≤ a := by
  intro a ha
  unfold keywordAmounts at ha
  obtain ⟨cap, hcap, hparse⟩ := List.mem_filterMap.mp ha
  have hchars : ∀ c ∈ cap, amountChar c := by
    unfold keywordCaptures at hcap
    rcases List.mem_append.mp hcap with h1 | h1
    · rcases List.mem_append.mp h1 with h2 | h2
      · exact findIter_cap REok_totalCapture h2
      · exact findIter_cap REok_totalCapture h2
    · exact findIter_cap REok_strictCapture h1
  refine pyFloat_nonneg ?_ hparse
  intro c hc
  exact amountChar_ne_minus (hchars c (List.mem_of_mem_filter hc))

/-- Every fallback amount of `_extract_total` is non-negative. -/
theorem parseAllQ_nonneg :
    ∀ (caps : List (List Char)), (∀ g ∈ caps, ∀ c ∈ g, amountChar c) →
      ∀ {l : List ℚ}, parseAllQ caps = some l → ∀ x ∈ l, 0 ≤ x := by
  intro caps
  induction caps with
  | nil =>
    intro _ l h x hx
    simp only [parseAllQ, Option.some.injEq] at h
    subst h
    simp at hx
  | cons g caps ih =>
    intro hg l h x hx
    unfold parseAllQ at h
    cases hp : pyFloat (g.filter (fun ch => ch != ',')) with
    | none => rw [hp] at h; exact absurd h (by simp)
    | some a =>
      rw [hp] at h
      cases hr : parseAllQ caps with
      | none => rw [hr] at h; exact absurd h (by simp)
      | some l2 =>
        rw [hr] at h
        rw [Option.some.injEq] at h
        subst h
        rcases List.mem_cons.mp hx with hx | hx
        · subst hx
          refine pyFloat_nonneg ?_ hp
          intro c hc
          exact amountChar_ne_minus
            (hg g (List.mem_cons_self g caps) c (List.mem_of_mem_filter hc))
        · exact ih (fun g2 hg2 => hg g2 (List.mem_cons_of_mem g hg2)) hr x hx

/-- The extracted receipt total, when present, is non-negative. -/
theorem extractTotal_nonneg {text : String} {a : ℚ}
    (h : extractTotal text = some a) : 0 ≤ a := by
  simp only [extractTotal] at h
  split at h
  · rw [Option.some.injEq] at h
    subst h
    exact listMaxQ_nonneg (keywordAmounts_nonneg _)
  · split at h
    · cases hp : parseAllQ (fallbackCaptures text.toList) with
      | none => rw [hp] at h; exact absurd h (by simp)
      | some l =>
        rw [hp] at h
        rw [Option.some.injEq] at h
        subst h
        refine listMaxQ_nonneg ?_
        refine parseAllQ_nonneg _ ?_ hp
        intro g hg
        exact findIter_cap REok_strictCapture hg
    · exact absurd h (by simp)

/-- C1: `AmountNormalizer.normalize` resolves the decimal separator on the
locale-ambiguous amount strings exactly as stated: `"149,06 zł"` is 149.06,
`"1 234,56 zł"`, `"1.234,56 zł"` and `"$1,234.56"` are all 1234.56 — when
both comma and period occur, the later one is the decimal separator and the
other is removed. -/
theorem amount_normalization_locale_cases :
    parseAmount "149,06 zł" = some (mkRat 14906 100) ∧
    parseAmount "1 234,56 zł" = some (mkRat 123456 100) ∧
    parseAmount "1.234,56 zł" = some (mkRat 123456 100) ∧
    parseAmount "$1,234.56" = some (mkRat 123456 100) := by
  refine ⟨by decide, by decide, by decide, by decide⟩

/-- C4: evaluation of the code at the claimed input.  The claim states
`normalize("(50.00)") = -50.00`; the code instead returns `-5000.0`: the
separator analysis runs before the brackets are removed, so the text after
the last period is `"00)"` (length 3), the period is treated as a thousands
separator and stripped, and the remaining `"(5000)"` is parsed as a
bracket-negative 5000. -/
theorem amount_paren_magnitude_bug :
    parseAmount "(50.00)" = some (-5000) := by decide

/-- C8: `DateNormalizer` tries its fixed format list in priority order and
returns the first successful parse as `YYYY-MM-DD`: `"15.01.2024"` and
`"01/15/2024"` both give `"2024-01-15"`, the US `MM/DD` reading wins the
ambiguous `"03/04/2024"`, the Polish day-first reading wins the dotted
`"05.06.2024"`, and `"invalid-date"` fails. -/
theorem date_normalization_cases :
    parseDate "15.01.2024" = some "2024-01-15" ∧
    parseDate "01/15/2024" = some "2024-01-15" ∧
    parseDate "03/04/2024" = some "2024-03-04" ∧
    parseDate "05.06.2024" = some "2024-06-05" ∧
    parseDate "invalid-date" = none := by
  refine ⟨by decide, by decide, by decide, by decide, by decide⟩

/-- C5 counterexample: when the LLM response is not parseable as the
expected structured form, `_parse_with_gemini` returns the empty list — it
does not fall back to the regex extractor over the raw text, contradicting
the claim (which asserts the result is never an empty result). -/
theorem gemini_malformed_returns_empty :
    parseWithGemini (.error .malformedResponse) = [] := rfl

/-- C5 amended: an unparseable response or a failed call makes
`_parse_with_gemini` return the empty transaction list for that document;
the deterministic regex extractor is selected only by the factory
`create_pdf_parser`, at construction time, when Gemini is disabled, the API
key is absent or empty, or initialization fails. -/
theorem gemini_failure_handling :
    parseWithGemini (.error .malformedResponse) = [] ∧
    parseWithGemini (.error .apiError) = [] ∧
    (∀ b, createPdfParser true none b = .regex) ∧
    (∀ b, createPdfParser true (some "") b = .regex) ∧
    (∀ k b, createPdfParser false k b = .regex) ∧
    createPdfParser true (some "key") false = .regex ∧
    createPdfParser true (some "key") true = .gemini := by
  refine ⟨rfl, rfl, fun b => rfl, fun b => rfl, fun k b => rfl, by decide, by decide⟩

/-- C10: the wire schema requires `amount > 0`, so a receipt whose total
could not be detected (defaulted to `0.0` by the extractor) fails
`TransactionData` construction at the output boundary and is surfaced as an
error, and every successfully returned `TransactionData` has a strictly
positive amount. -/
theorem receipt_zero_total_surfaced (today text : String)
    (h : extractTotal text = none) :
    (parseReceiptTransaction today text).amount = 0 ∧
    receiptEndpointCore today text = .error "Error parsing receipt" ∧
    (∀ d ds ty, mkTransactionData d 0 ds ty = none) ∧
    (∀ t₂ td, receiptEndpointCore today t₂ = .ok td → 0 < td.amount) := by
  refine ⟨?_, ?_, ?_, ?_⟩
  · simp [parseReceiptTransaction, h]
  · simp [receiptEndpointCore, parseReceiptTransaction, h, mkTransactionData]
  · intro d ds ty
    simp [mkTransactionData]
  · intro t₂ td h2
    unfold receiptEndpointCore at h2
    split at h2
    · rename_i td1 heq
      simp only [Except.ok.injEq] at h2
      subst h2
      unfold mkTransactionData at heq
      split at heq
      · rename_i hpos
        cases heq
        exact hpos
      · cases heq
    · cases h2

/-- C10 witness: a text with no detectable total reaches the error path. -/
theorem receipt_zero_total_surfaced_witness :
    (parseReceiptTransaction "2024-01-01" "hello there").amount = 0 ∧
    receiptEndpointCore "2024-01-01" "hello there" = .error "Error parsing receipt" ∧
    (∀ d ds ty, mkTransactionData d 0 ds ty = none) ∧
    (∀ t₂ td, receiptEndpointCore "2024-01-01" t₂ = .ok td → 0 < td.amount) :=
  receipt_zero_total_surfaced "2024-01-01" "hello there" (by decide)

/-! ### Deduplication policy -/

/-- A kept transaction's key was not in the seen set. -/
theorem dedupAux_key_not_seen :
    ∀ (ts : List Transaction) (seen : List (String × ℚ × String)) (u : Transaction),
      u ∈ dedupAux seen ts → txKey u ∉ seen := by
  intro ts
  induction ts with
  | nil =>
    intro seen u hu
    simp [dedupAux] at hu
  | cons t ts ih =>
    intro seen u hu
    unfold dedupAux at hu
    split at hu
    · exact ih seen u hu
    · rename_i hns
      rcases List.mem_cons.mp hu with hu | hu
      · subst hu; exact hns
      · intro hmem
        exact ih _ u hu (List.mem_cons_of_mem _ hmem)

/-- The deduplicated output has pairwise distinct keys. -/
theorem dedupAux_pairwise :
    ∀ (ts : List Transaction) (seen : List (String × ℚ × String)),
      List.Pairwise (fun a b => txKey a ≠ txKey b) (dedupAux seen ts) := by
  intro ts
  induction ts with
  | nil =>
    intro seen
    simp [dedupAux]
  | cons t ts ih =>
    intro seen
    unfold dedupAux
    split
    · exact ih seen
    · refine List.Pairwise.cons ?_ (ih _)
      intro u hu he
      exact dedupAux_key_not_seen ts _ u hu (he ▸ List.mem_cons_self _ _)

/-- The deduplicated output is a sublist of the input (order preserved). -/
theorem dedupAux_sublist :
    ∀ (ts : List Transaction) (seen : List (String × ℚ × String)),
      (dedupAux seen ts).Sublist ts := by
  intro ts
  induction ts with
  | nil =>
    intro seen
    simp [dedupAux]
  | cons t ts ih =>
    intro seen
    unfold dedupAux
    split
    · exact (ih seen).cons t
    · exact (ih _).cons₂ t

/-- The first occurrence of each unseen key is kept. -/
theorem dedupAux_first :
    ∀ (l₁ : List Transaction) (seen : List (String × ℚ × String))
      (t : Transaction) (l₂ : List Transaction),
      txKey t ∉ seen → txKey t ∉ l₁.map txKey →
      t ∈ dedupAux seen (l₁ ++ t :: l₂) := by
  intro l₁
  induction l₁ with
  | nil =>
    intro seen t l₂ hs _
    rw [List.nil_append]
    unfold dedupAux
    rw [if_neg hs]
    exact List.mem_cons_self _ _
  | cons a l₁ ih =>
    intro seen t l₂ hs hm
    rw [List.map_cons] at hm
    rw [List.cons_append]
    unfold dedupAux
    split
    · exact ih seen t l₂ hs (fun h2 => hm (List.mem_cons_of_mem _ h2))
    · refine List.mem_cons_of_mem a (ih _ t l₂ ?_ ?_)
      · intro hmem
        rcases List.mem_cons.mp hmem with he | hmem2
        · exact hm (he ▸ List.mem_cons_self _ _)
        · exact hs hmem2
      · exact fun h2 => hm (List.mem_cons_of_mem _ h2)

/-- C6: the extractor's deduplication: the output has no two transactions
agreeing on the key `(date, amount, first 50 characters of description)`,
it is a subsequence of the candidate list (order of first appearance
preserved), and the first candidate with each key is kept. -/
theorem dedup_first_occurrence_policy (ts : List Transaction) :
    List.Pairwise (fun a b => txKey a ≠ txKey b) (dedupTransactions ts) ∧
    (dedupTransactions ts).Sublist ts ∧
    (∀ l₁ t l₂, ts = l₁ ++ t :: l₂ → txKey t ∉ l₁.map txKey →
      t ∈ dedupTransactions ts) := by
  refine ⟨dedupAux_pairwise ts [], dedupAux_sublist ts [], ?_⟩
  intro l₁ t l₂ hts hm
  subst hts
  exact dedupAux_first l₁ [] t l₂ (by simp) hm

/-- C6 witness: the duplicate pair from the repository's own test. -/
theorem dedup_first_occurrence_policy_witness :
    List.Pairwise (fun a b => txKey a ≠ txKey b)
      (dedupTransactions [⟨"2024-01-15", 50, "GROCERY STORE", "expense"⟩,
        ⟨"2024-01-15", 50, "GROCERY STORE", "expense"⟩,
        ⟨"2024-01-20", 100, "RESTAURANT", "expense"⟩]) ∧
    (dedupTransactions [⟨"2024-01-15", 50, "GROCERY STORE", "expense"⟩,
        ⟨"2024-01-15", 50, "GROCERY STORE", "expense"⟩,
        ⟨"2024-01-20", 100, "RESTAURANT", "expense"⟩]).Sublist
      [⟨"2024-01-15", 50, "GROCERY STORE", "expense"⟩,
        ⟨"2024-01-15", 50, "GROCERY STORE", "expense"⟩,
        ⟨"2024-01-20", 100, "RESTAURANT", "expense"⟩] ∧
    (⟨"2024-01-15", 50, "GROCERY STORE", "expense"⟩ : Transaction) ∈
      dedupTransactions [⟨"2024-01-15", 50, "GROCERY STORE", "expense"⟩,
        ⟨"2024-01-15", 50, "GROCERY STORE", "expense"⟩,
        ⟨"2024-01-20", 100, "RESTAURANT", "expense"⟩] :=
  ⟨(dedup_first_occurrence_policy _).1, (dedup_first_occurrence_policy _).2.1,
    (dedup_first_occurrence_policy _).2.2 [] _ _ rfl (by simp)⟩

/-! ### Learned-rule confidences -/

/-- A matching rule's confidence is strictly positive. -/
theorem ruleConf_pos (n : Nat) : 0 < ruleConf n := by
  unfold ruleConf
  rw [lt_min_iff]
  constructor
  · positivity
  · norm_num

/-- The confidence ceiling. -/
theorem ruleConf_le (n : Nat) : ruleConf n ≤ 19 / 20 :=
  min_le_right _ _

/-- Below the ceiling, one more reinforcement strictly increases the
confidence. -/
theorem ruleConf_strict (n : Nat) (h : ruleConf n < 19 / 20) :
    ruleConf n < ruleConf (n + 1) := by
  unfold ruleConf at *
  have ha : (4 : ℚ) / 5 + (n : ℚ) * (3 / 100) < 19 / 20 := by
    by_contra hcon
    push_neg at hcon
    rw [min_eq_right hcon] at h
    exact lt_irrefl _ h
  rw [min_eq_left (le_of_lt ha), lt_min_iff]
  constructor
  · push_cast
    linarith
  · exact ha

/-- Once a best match is recorded, the scan keeps returning a match. -/
theorem checkLearnedAux_isSome :
    ∀ (rs : List Rule) (dl : String) (x : String × ℚ) (bc : ℚ),
      (checkLearnedAux dl (some x) bc rs).isSome := by
  intro rs
  induction rs with
  | nil =>
    intro dl x bc
    simp [checkLearnedAux]
  | cons r rs ih =>
    intro dl x bc
    unfold checkLearnedAux
    split
    · exact ih dl x bc
    · split
      · split
        · exact ih dl _ _
        · exact ih dl x bc
      · exact ih dl x bc

/-- If some valid rule matches, the scan returns a match. -/
theorem checkLearnedAux_some_of_match :
    ∀ (rs : List Rule) (dl : String) (best : Option (String × ℚ)) (bc : ℚ),
      (best = none → bc = 0) →
      (∃ r ∈ rs, lowerS r.pattern ≠ "" ∧ r.category ≠ "" ∧
        isSubstr (lowerS r.pattern).toList dl.toList = true) →
      (checkLearnedAux dl best bc rs).isSome := by
  intro rs
  induction rs with
  | nil =>
    intro dl best bc hinv hex
    obtain ⟨r, hr, -⟩ := hex
    simp at hr
  | cons r0 rs ih =>
    intro dl best bc hinv hex
    obtain ⟨r, hr, hp, hc, hm⟩ := hex
    unfold checkLearnedAux
    split
    · rename_i hskip
      rcases List.mem_cons.mp hr with he | hr2
      · subst he
        rcases hskip with hk | hk
        · exact absurd hk hp
        · exact absurd hk hc
      · exact ih dl best bc hinv ⟨r, hr2, hp, hc, hm⟩
    · split
      · split
        · exact checkLearnedAux_isSome rs dl _ _
        · rename_i hmatch hnl
          push_neg at hnl
          have hbc : 0 < bc := lt_of_lt_of_le (ruleConf_pos _) hnl
          cases hbest : best with
          | none => exact absurd (hinv hbest) (ne_of_gt hbc)
          | some x => exact checkLearnedAux_isSome rs dl x bc
      · rename_i hnm
        rcases List.mem_cons.mp hr with he | hr2
        · subst he
          exact absurd hm (by simpa using hnm)
        · exact ih dl best bc hinv ⟨r, hr2, hp, hc, hm⟩

/-- Any returned match either was the incoming best or originates from a
valid matching rule of the scanned list, carrying that rule's category and
computed confidence. -/
theorem checkLearnedAux_origin :
    ∀ (rs : List Rule) (dl : String) (best : Option (String × ℚ)) (bc : ℚ)
      (x : String × ℚ),
      checkLearnedAux dl best bc rs = some x →
      best = some x ∨ ∃ r ∈ rs, x = (r.category, ruleConf r.learned_from) ∧
        lowerS r.pattern ≠ "" ∧ r.category ≠ "" ∧
        isSubstr (lowerS r.pattern).toList dl.toList = true := by
  intro rs
  induction rs with
  | nil =>
    intro dl best bc x h
    exact Or.inl (by simpa [checkLearnedAux] using h)
  | cons r0 rs ih =>
    intro dl best bc x h
    unfold checkLearnedAux at h
    split at h
    · rcases ih dl best bc x h with h2 | ⟨r, hr, hres⟩
      · exact Or.inl h2
      · exact Or.inr ⟨r, List.mem_cons_of_mem r0 hr, hres⟩
    · rename_i hval
      rw [not_or] at hval
      split at h
      · rename_i hmatch
        split at h
        · rcases ih dl _ _ x h with h2 | ⟨r, hr, hres⟩
          · rw [Option.some.injEq] at h2
            exact Or.inr ⟨r0, List.mem_cons_self r0 rs,
              h2.symm, hval.1, hval.2, hmatch⟩
          · exact Or.inr ⟨r, List.mem_cons_of_mem r0 hr, hres⟩
        · rcases ih dl best bc x h with h2 | ⟨r, hr, hres⟩
          · exact Or.inl h2
          · exact Or.inr ⟨r, List.mem_cons_of_mem r0 hr, hres⟩
      · rcases ih dl best bc x h with h2 | ⟨r, hr, hres⟩
        · exact Or.inl h2
        · exact Or.inr ⟨r, List.mem_cons_of_mem r0 hr, hres⟩

/-- C2: learned rules strictly precede default keywords: whenever some
valid learned rule's pattern is a substring of the description, the
returned category and confidence come from a matching learned rule; in
particular `learn("ABC Gym", "Entertainment")` on a fresh engine makes
`categorize("ABC Gym")` return `("Entertainment", 0.83)` with 0.83 > 0.8,
even though `"gym"` is a default keyword of Personal Care (which the
default scan alone would return). -/
theorem learned_rules_take_precedence (rules : List Rule) (desc : String)
    (h : ∃ r ∈ rules, lowerS r.pattern ≠ "" ∧ r.category ≠ "" ∧
      isSubstr (lowerS r.pattern).toList (lowerS desc).toList = true) :
    (∃ r ∈ rules, categorize rules desc = (r.category, ruleConf r.learned_from) ∧
      isSubstr (lowerS r.pattern).toList (lowerS desc).toList = true) ∧
    categorize (learn [] "ABC Gym" "Entertainment") "ABC Gym"
      = ("Entertainment", ruleConf 1) ∧
    ruleConf 1 = mkRat 83 100 ∧
    (4 : ℚ) / 5 < ruleConf 1 ∧
    "gym" ∈ (defaultPatterns.lookup "Personal Care").getD [] ∧
    categorize [] "ABC Gym" = ("Personal Care", keywordConf "gym") := by
  refine ⟨?_, ?_, ?_, ?_, by decide, ?_⟩
  · have hsome := checkLearnedAux_some_of_match rules (lowerS desc) none 0
      (fun _ => rfl) h
    obtain ⟨x, hx⟩ := Option.isSome_iff_exists.mp hsome
    rcases checkLearnedAux_origin rules (lowerS desc) none 0 x hx with h0 |
      ⟨r, hr, hxe, hp, hc, hm⟩
    · exact absurd h0 (by simp)
    · have hx2 : checkLearnedRules rules (lowerS desc) = some x := hx
      refine ⟨r, hr, ?_, hm⟩
      simp only [categorize, hx2]
      exact hxe
  · have hlearn : learn [] "ABC Gym" "Entertainment"
        = [⟨"abc gym", "Entertainment", 1⟩] := by decide
    rw [hlearn]
    have hcat : checkLearnedRules [⟨"abc gym", "Entertainment", 1⟩] (lowerS "ABC Gym")
        = some ("Entertainment", ruleConf 1) := by
      unfold checkLearnedRules checkLearnedAux
      rw [if_neg (by decide), if_pos (by decide), if_pos (ruleConf_pos 1)]
      rfl
    simp only [categorize, hcat]
  · rw [Rat.mkRat_eq_div]
    norm_num [ruleConf, min_def]
  · norm_num [ruleConf, min_def]
  · rfl

/-- C2 witness: a learned rule on a matching description. -/
theorem learned_rules_take_precedence_witness :
    (∃ r ∈ [(⟨"gym", "Fitness", 2⟩ : Rule)],
      categorize [(⟨"gym", "Fitness", 2⟩ : Rule)] "my gym"
        = (r.category, ruleConf r.learned_from) ∧
      isSubstr (lowerS r.pattern).toList (lowerS "my gym").toList = true) ∧
    categorize (learn [] "ABC Gym" "Entertainment") "ABC Gym"
      = ("Entertainment", ruleConf 1) ∧
    ruleConf 1 = mkRat 83 100 ∧
    (4 : ℚ) / 5 < ruleConf 1 ∧
    "gym" ∈ (defaultPatterns.lookup "Personal Care").getD [] ∧
    categorize [] "ABC Gym" = ("Personal Care", keywordConf "gym") :=
  learned_rules_take_precedence [⟨"gym", "Fitness", 2⟩] "my gym" (by decide)

/-! ### Reinforcement learning of one pattern -/

/-- Repeating the same `learn` call on a fresh engine yields a single rule
whose `learned_from` counts the calls. -/
theorem learnN_singleton (m c : String) :
    ∀ n, learnN (n + 1) m c = [⟨extractPattern (lowerS m), c, n + 1⟩] := by
  intro n
  induction n with
  | zero =>
    show learn [] m c = _
    simp [learn]
  | succ n ih =>
    show learn (learnN (n + 1) m c) m c = _
    rw [ih]
    simp [learn, updateFirst]

/-- After `n + 1` reinforcements, categorizing a matching description
returns the learned category with confidence `ruleConf (n + 1)`. -/
theorem categorize_learnN (m c d : String) (n : Nat)
    (hp : lowerS (extractPattern (lowerS m)) ≠ "")
    (hc : c ≠ "")
    (hm : isSubstr (lowerS (extractPattern (lowerS m))).toList (lowerS d).toList = true) :
    categorize (learnN (n + 1) m c) d = (c, ruleConf (n + 1)) := by
  rw [learnN_singleton]
  have h1 : checkLearnedRules [⟨extractPattern (lowerS m), c, n + 1⟩] (lowerS d)
      = some (c, ruleConf (n + 1)) := by
    unfold checkLearnedRules checkLearnedAux
    rw [if_neg (by rw [not_or]; exact ⟨hp, hc⟩), if_pos hm,
      if_pos (ruleConf_pos (n + 1))]
    rfl
  simp only [categorize, h1]

/-- C7: repeated same-pattern reinforcement: `learned_from` increments by 1
per same-category `learn`, the returned confidence is
`min(0.8 + learned_from * 0.03, 0.95)`, never exceeds 0.95, and strictly
increases with one more reinforcement while below the ceiling. -/
theorem confidence_reinforcement (m c d : String) (n : Nat)
    (hp : lowerS (extractPattern (lowerS m)) ≠ "")
    (hc : c ≠ "")
    (hm : isSubstr (lowerS (extractPattern (lowerS m))).toList (lowerS d).toList = true) :
    learnN (n + 1) m c = [⟨extractPattern (lowerS m), c, n + 1⟩] ∧
    (categorize (learnN (n + 1) m c) d).2 = ruleConf (n + 1) ∧
    (categorize (learnN (n + 1) m c) d).1 = c ∧
    (categorize (learnN (n + 1) m c) d).2 ≤ 19 / 20 ∧
    ((categorize (learnN (n + 1) m c) d).2 < 19 / 20 →
      (categorize (learnN (n + 1) m c) d).2 < (categorize (learnN (n + 2) m c) d).2) := by
  have h1 := categorize_learnN m c d n hp hc hm
  have h2 := categorize_learnN m c d (n + 1) hp hc hm
  refine ⟨learnN_singleton m c n, by rw [h1], by rw [h1], ?_, ?_⟩
  · rw [h1]
    exact ruleConf_le _
  · intro hlt
    rw [h1] at hlt ⊢
    rw [h2]
    exact ruleConf_strict _ hlt

/-- C7 witness: three reinforcements of one membership description. -/
theorem confidence_reinforcement_witness :
    learnN 3 "Monthly Gym Membership" "Personal Care"
      = [⟨extractPattern (lowerS "Monthly Gym Membership"), "Personal Care", 3⟩] ∧
    (categorize (learnN 3 "Monthly Gym Membership" "Personal Care")
      "Monthly Gym Membership").2 = ruleConf 3 ∧
    (categorize (learnN 3 "Monthly Gym Membership" "Personal Care")
      "Monthly Gym Membership").1 = "Personal Care" ∧
    (categorize (learnN 3 "Monthly Gym Membership" "Personal Care")
      "Monthly Gym Membership").2 ≤ 19 / 20 ∧
    ((categorize (learnN 3 "Monthly Gym Membership" "Personal Care")
      "Monthly Gym Membership").2 < 19 / 20 →
      (categorize (learnN 3 "Monthly Gym Membership" "Personal Care")
        "Monthly Gym Membership").2 <
      (categorize (learnN 4 "Monthly Gym Membership" "Personal Care")
        "Monthly Gym Membership").2) :=
  confidence_reinforcement "Monthly Gym Membership" "Personal Care"
    "Monthly Gym Membership" 2 (by decide) (by decide) (by decide)

/-! ### Receipt total selection and the amount invariant -/

/-- C3 counterexample: the extracted total is not the maximum over the
keyword candidates plus the fallback candidates.  In
`"ITEM 99.99\nTOTAL: 5.00"` the fallback pattern matches `99.99`, yet the
code returns 5.00 (the keyword-candidate maximum): the fallback pool is
never consulted once a keyword candidate exists. -/
theorem receipt_total_not_max_of_all_candidates :
    extractTotal "ITEM 99.99\nTOTAL: 5.00" = some (mkRat 500 100) ∧
    "99.99".toList ∈ fallbackCaptures "ITEM 99.99\nTOTAL: 5.00".toList ∧
    pyFloat ("99.99".toList.filter (fun c => c != ',')) = some (mkRat 9999 100) ∧
    mkRat 500 100 < mkRat 9999 100 := by
  refine ⟨by decide, by decide, by decide, by decide⟩

/-- C3 amended: the receipt total is the maximum of the primary candidates
(numeric matches after a total keyword, plus dollar-prefixed decimals
before `total` or the end) whenever any exist; only with no primary
candidate is the fallback pattern used, the total then being the maximum of
the fallback matches when they all parse; with no candidate at all the
total is absent (0.0 substituted).  The stated end-to-end example holds:
`"TOTAL: $42.17"` among smaller line amounts yields amount 42.17. -/
theorem receipt_total_selection (text : String) :
    (keywordAmounts text.toList ≠ [] →
      extractTotal text = some (listMaxQ (keywordAmounts text.toList))) ∧
    (keywordAmounts text.toList = [] → fallbackCaptures text.toList = [] →
      extractTotal text = none) ∧
    (keywordAmounts text.toList = [] → fallbackCaptures text.toList ≠ [] →
      extractTotal text = (parseAllQ (fallbackCaptures text.toList)).map listMaxQ) ∧
    extractTotal "MILK 3.99\nBREAD 2.49\nTOTAL: $42.17" = some (mkRat 4217 100) ∧
    (parseReceiptTransaction "2024-01-01" "MILK 3.99\nBREAD 2.49\nTOTAL: $42.17").amount
      = mkRat 4217 100 := by
  refine ⟨?_, ?_, ?_, by decide, by decide⟩
  · intro h
    simp only [extractTotal]
    rw [if_pos h]
  · intro h1 h2
    simp only [extractTotal]
    rw [if_neg (not_not_intro h1), if_neg (not_not_intro h2)]
  · intro h1 h2
    simp only [extractTotal]
    rw [if_neg (not_not_intro h1), if_pos h2]
    cases hp : parseAllQ (fallbackCaptures text.toList) with
    | none => simp [hp]
    | some l => simp [hp]

/-- C3 witness: a text with a keyword candidate takes the primary branch. -/
theorem receipt_total_selection_witness :
    extractTotal "sum: 3.00" = some (listMaxQ (keywordAmounts "sum: 3.00".toList)) ∧
    extractTotal "MILK 3.99\nBREAD 2.49\nTOTAL: $42.17" = some (mkRat 4217 100) :=
  ⟨(receipt_total_selection "sum: 3.00").1 (by decide),
   (receipt_total_selection "MILK 3.99\nBREAD 2.49\nTOTAL: $42.17").2.2.2.1⟩

/-- C9: every transaction produced by either extractor has a non-negative
amount, direction carried only in `type`: the statement extractor stores
the absolute value of the parsed amount with type `expense` exactly for
negative parses and `income` otherwise, and the receipt extractor's
transaction is always an `expense` with non-negative amount. -/
theorem extraction_amount_invariant :
    (∀ g0 g1 g2 t, parseTransactionMatch g0 g1 g2 = some t →
      0 ≤ t.amount ∧ (t.type = "expense" ∨ t.type = "income") ∧
      ∃ a, parseAmount (if isAmount g1 then g1 else g2) = some a ∧
        t.amount = |a| ∧ t.type = (if a < 0 then "expense" else "income")) ∧
    (∀ today text, (parseReceiptTransaction today text).type = "expense" ∧
      0 ≤ (parseReceiptTransaction today text).amount) := by
  constructor
  · intro g0 g1 g2 t h
    unfold parseTransactionMatch at h
    split at h
    · exact absurd h (by simp)
    · split at h
      · exact absurd h (by simp)
      · rename_i d hd a ha
        rw [Option.some.injEq] at h
        subst h
        refine ⟨abs_nonneg a, ?_, a, ha, rfl, rfl⟩
        by_cases hlt : a < 0 <;> simp [hlt]
  · intro today text
    refine ⟨rfl, ?_⟩
    have hamt : (parseReceiptTransaction today text).amount
        = (extractTotal text).getD 0 := rfl
    rw [hamt]
    cases hE : extractTotal text with
    | none => simp
    | some a => simpa using extractTotal_nonneg hE

/-- C9 witness: a negative statement amount and a concrete receipt. -/
theorem extraction_amount_invariant_witness :
    (0 ≤ (⟨"2024-01-15", 50, "GROCERY STORE", "expense"⟩ : Transaction).amount ∧
      ((⟨"2024-01-15", 50, "GROCERY STORE", "expense"⟩ : Transaction).type = "expense" ∨
        (⟨"2024-01-15", 50, "GROCERY STORE", "expense"⟩ : Transaction).type = "income") ∧
      ∃ a, parseAmount (if isAmount "-50.00" then "-50.00" else "GROCERY STORE") = some a ∧
        (⟨"2024-01-15", 50, "GROCERY STORE", "expense"⟩ : Transaction).amount = |a| ∧
        (⟨"2024-01-15", 50, "GROCERY STORE", "expense"⟩ : Transaction).type
          = (if a < 0 then "expense" else "income")) ∧
    ((parseReceiptTransaction "2024-01-01" "TOTAL: 5.00").type = "expense" ∧
      0 ≤ (parseReceiptTransaction "2024-01-01" "TOTAL: 5.00").amount) :=
  ⟨extraction_amount_invariant.1 "01/15/2024" "-50.00" "GROCERY STORE"
      ⟨"2024-01-15", 50, "GROCERY STORE", "expense"⟩ (by decide),
   extraction_amount_invariant.2 "2024-01-01" "TOTAL: 5.00"⟩

end Budget
